import Mathlib

/-!
Verification of the smolwik core: the access-authorization model
(`src/auth.rs`), the document codec (`src/article.rs`) and the atomic
file writer (`src/filesystem.rs`), shallowly embedded in Lean.

Streams are modelled as `List Char` (the source reads UTF-8 text line by
line); byte counts are recovered with `Char.utf8Size`, matching the byte
counts returned by the source's `read_line`.  Error variants keep their
payloads (the `path` context string, the offending first line) but I/O
`source` errors are reduced to an error-kind enumeration, which is the
only part of them the source inspects.
-/

namespace Smolwik

instance {ε α : Type} [DecidableEq ε] [DecidableEq α] : DecidableEq (Except ε α) := fun x y =>
  match x, y with
  | .error a, .error b =>
      if h : a = b then .isTrue (by rw [h]) else .isFalse (by simp [h])
  | .ok a, .ok b =>
      if h : a = b then .isTrue (by rw [h]) else .isFalse (by simp [h])
  | .error _, .ok _ => .isFalse (by simp)
  | .ok _, .error _ => .isFalse (by simp)

/-! ## Access model — `src/auth.rs` -/

/-- Source `Username` from `src/auth.rs`: a newtype over `String`; equality is
string equality. -/
abbrev Username := String

/-- Source `Access` from `src/auth.rs`. -/
inductive Access : Type
  /-- Anyone has access. -/
  | anonymous : Access
  /-- Any authenticated user has access. -/
  | authenticated : Access
  /-- The username of the authenticated user must be contained in the list
  of usernames to have access. -/
  | accounts (allowed : List Username) : Access
deriving DecidableEq

/-- Source `User` from `src/auth.rs`. -/
inductive User : Type
  /-- No user is authenticated. -/
  | anonymous : User
  /-- The user is authenticated in single-user mode. -/
  | singleUser : User
  /-- The user is authenticated with the specified username. -/
  | account (username : Username) : User
deriving DecidableEq

/-- Source `Authorization` from `src/auth.rs`: the result of an access check. -/
inductive Authorization : Type
  | authorized : Authorization
  | unauthorized : Authorization
  | authenticationRequired : Authorization
deriving DecidableEq

/-- Source `User::check_authorization` from `src/auth.rs` (lines 110–128): a
first-match `match` over the `(self, access)` pair, in source order. -/
def User.check_authorization : User → Access → Authorization
  | _, .anonymous => .authorized
  | .singleUser, _ => .authorized
  | .account _, .authenticated => .authorized
  | .account username, .accounts allowed =>
      match allowed.contains username with
      | true => .authorized
      | false => .unauthorized
  | .anonymous, _ => .authenticationRequired

/-! ## Document codec — `src/article.rs` -/

/-- Source `MARKDOWN_SEPARATOR_LINUX` = `"+++\n"` (`src/article.rs` line 12). -/
def MARKDOWN_SEPARATOR_LINUX : List Char := "+++\n".toList

/-- Source `MARKDOWN_SEPARATOR_WINDOWS` = `"+++\r\n"` (`src/article.rs` line 13). -/
def MARKDOWN_SEPARATOR_WINDOWS : List Char := "+++\r\n".toList

/-- Source `Metadata` from `src/metadata.rs`. -/
structure Metadata : Type where
  title : String
  edit_access : Access
  view_access : Access
deriving DecidableEq

/-- Source `RawArticle` from `src/article.rs`. -/
structure RawArticle : Type where
  metadata : Metadata
  markdown : String
deriving DecidableEq

/-- The error kinds of `std::io::ErrorKind` that the repository inspects,
plus a catch-all for every other kind. -/
inductive IoErrorKind : Type
  | notFound
  | isADirectory
  | invalidInput
  | invalidFilename
  | alreadyExists
  | permissionDenied
  | other
deriving DecidableEq

/-- Source `ArticleReadError` from `src/article.rs` (lines 131–145).  The
`source` payload of `IoError` is reduced to its error kind. -/
inductive ArticleReadError : Type
  | notFound (path : String)
  | ioError (source : IoErrorKind) (path : String)
  | missingMetadataStart (path : String) (first_line : String)
  | missingMetadataEnd (path : String)
  | invalidMetadata (path : String)
deriving DecidableEq

/-- Byte length of a character list: the number of bytes the source's
`read_line` counts for this text. -/
def byteLen (l : List Char) : Nat := (l.map Char.utf8Size).sum

/-- One `read_line` call on a character stream: consume up to and
including the first `'\n'` (or the whole stream when it has none), return
the line and the remaining stream. -/
def readLine : List Char → List Char × List Char
  | [] => ([], [])
  | c :: rest =>
      if c = '\n' then ([c], rest)
      else
        let p := readLine rest
        (c :: p.1, p.2)

/-- The metadata-accumulation loop of `RawArticle::from_reader`
(`src/article.rs` lines 80–92), one character at a time: `acc` is the
`metadata` buffer already accumulated, `cur` the partial current line.
At each completed line the source matches on the byte count returned by
`read_line`: `0` is `MissingMetadataEnd`, `4` with the buffer ending in
`MARKDOWN_SEPARATOR_LINUX` breaks with separator length 4, `5` with the
buffer ending in `MARKDOWN_SEPARATOR_WINDOWS` breaks with 5, anything
else continues.  At end of stream a final partial line (if any) is
delivered by `read_line` first, then a zero-length read ends the loop. -/
def metaLoop (path : String) (acc cur : List Char) :
    List Char → Except ArticleReadError (List Char × Nat × List Char)
  | [] =>
      let n := byteLen cur
      let acc' := acc ++ cur
      if n = 0 then .error (.missingMetadataEnd path)
      else if n = 4 ∧ MARKDOWN_SEPARATOR_LINUX.IsSuffix acc' then .ok (acc', 4, [])
      else if n = 5 ∧ MARKDOWN_SEPARATOR_WINDOWS.IsSuffix acc' then .ok (acc', 5, [])
      else .error (.missingMetadataEnd path)
  | c :: rest =>
      if c = '\n' then
        let line := cur ++ ['\n']
        let n := byteLen line
        let acc' := acc ++ line
        if n = 4 ∧ MARKDOWN_SEPARATOR_LINUX.IsSuffix acc' then .ok (acc', 4, rest)
        else if n = 5 ∧ MARKDOWN_SEPARATOR_WINDOWS.IsSuffix acc' then .ok (acc', 5, rest)
        else metaLoop path acc' [] rest
      else metaLoop path acc (cur ++ [c]) rest

/-- Source `String::truncate(n)` where `n` is a byte count
(`src/article.rs` line 94): keep the longest initial run of characters
whose total byte length fits in `n`. -/
def truncateBytes : List Char → Nat → List Char
  | [], _ => []
  | c :: rest, n =>
      if c.utf8Size ≤ n then c :: truncateBytes rest (n - c.utf8Size) else []

/-! ### Metadata key-value codec

Modelled from the spec: the metadata block is "structured key-value data"
(§4.3, §6) handled by an external serialization library that is not part
of this repository's sources.  The spec requires each metadata field
(`title`, then the two access rules) re-encoded as structured text whose
deserialization inverts it; string content (including quotes, newlines
and carriage returns) is escaped so that the encoded block is a sequence
of `key = value` lines, none of which collides with the document
delimiter. -/

/-- Modelled from the spec: escape one character for a quoted string
value (the external library's string escaping). -/
def escChar (c : Char) : List Char :=
  if c = '\\' then ['\\', '\\']
  else if c = '"' then ['\\', '"']
  else if c = '\n' then ['\\', 'n']
  else if c = '\r' then ['\\', 'r']
  else [c]

/-- Modelled from the spec: escape a whole string. -/
def esc (s : List Char) : List Char := (s.map escChar).flatten

/-- Modelled from the spec: a quoted, escaped string value. -/
def quoteStr (s : String) : List Char := '"' :: (esc s.toList ++ ['"'])

/-- Modelled from the spec: the inverse of `escChar`'s second character. -/
def unescChar (c : Char) : Char :=
  if c = 'n' then '\n' else if c = 'r' then '\r' else c

/-- Modelled from the spec: read the body of a quoted string (opening
quote already consumed) up to its closing quote, unescaping as it goes. -/
def quotedContent (cur : List Char) : List Char → Option (String × List Char)
  | [] => none
  | c :: rest =>
      if c = '\\' then
        match rest with
        | [] => none
        | d :: rest' => quotedContent (cur ++ [unescChar d]) rest'
      else if c = '"' then some (String.mk cur, rest)
      else quotedContent (cur ++ [c]) rest

/-- Modelled from the spec: parse a quoted string value at the head of
the input, returning the string and the rest of the input. -/
def decodeQuoted : List Char → Option (String × List Char)
  | '"' :: rest => quotedContent [] rest
  | _ => none

/-- Modelled from the spec: the comma-joined list of encoded names. -/
def joinComma : List (List Char) → List Char
  | [] => []
  | [x] => x
  | x :: xs => x ++ ',' :: joinComma xs

/-- Parser state for a comma-separated list of quoted names. -/
inductive PNState : Type
  | expectOpen
  | inside (cur : List Char)
  | closed
deriving DecidableEq

/-- Modelled from the spec: parse a non-empty comma-separated list of
quoted names (`done` accumulates finished names). -/
def parseNamesGo (st : PNState) (done : List String) :
    List Char → Option (List String)
  | [] =>
      match st with
      | .closed => some done
      | _ => none
  | c :: rest =>
      match st with
      | .expectOpen => if c = '"' then parseNamesGo (.inside []) done rest else none
      | .inside cur =>
          if c = '\\' then
            match rest with
            | [] => none
            | d :: rest' => parseNamesGo (.inside (cur ++ [unescChar d])) done rest'
          else if c = '"' then parseNamesGo .closed (done ++ [String.mk cur]) rest
          else parseNamesGo (.inside (cur ++ [c])) done rest
      | .closed => if c = ',' then parseNamesGo .expectOpen done rest else none

/-- Modelled from the spec: parse a non-empty comma-separated list of
quoted names. -/
def parseNames (s : List Char) : Option (List String) :=
  parseNamesGo .expectOpen [] s

/-- Modelled from the spec: the encoded form of one access rule. -/
def encAccess : Access → List Char
  | .anonymous => "\"Anonymous\"".toList
  | .authenticated => "\"Authenticated\"".toList
  | .accounts allowed =>
      "\x7b Accounts = [".toList ++ joinComma (allowed.map quoteStr) ++ "] \x7d".toList

/-- If `pat` is an initial segment of `s`, return the rest of `s`. -/
def expect : List Char → List Char → Option (List Char)
  | [], s => some s
  | _ :: _, [] => none
  | p :: ps, c :: cs => if c = p then expect ps cs else none

/-- If `pat` is a final segment of `s`, return the front of `s`. -/
def expectEnd (pat s : List Char) : Option (List Char) :=
  (expect pat.reverse s.reverse).map List.reverse

/-- Modelled from the spec: decode one access-rule value. -/
def decAccess (s : List Char) : Option Access :=
  if s = "\"Anonymous\"".toList then some .anonymous
  else if s = "\"Authenticated\"".toList then some .authenticated
  else
    match expect "\x7b Accounts = [".toList s with
    | none => none
    | some rest =>
        match expectEnd "] \x7d".toList rest with
        | none => none
        | some mid =>
            if mid = [] then some (.accounts [])
            else (parseNames mid).map .accounts

/-- Modelled from the spec: the `title` key-value line (without its
terminator). -/
def titleLine (m : Metadata) : List Char := "title = ".toList ++ quoteStr m.title

/-- Modelled from the spec: the `edit_access` key-value line (without its
terminator). -/
def editLine (m : Metadata) : List Char :=
  "edit_access = ".toList ++ encAccess m.edit_access

/-- Modelled from the spec: the `view_access` key-value line (without its
terminator). -/
def viewLine (m : Metadata) : List Char :=
  "view_access = ".toList ++ encAccess m.view_access

/-- Modelled from the spec: the metadata block as structured key-value
text — one `key = value` line per field, each line `'\n'`-terminated. -/
def encodeMetadata (m : Metadata) : List Char :=
  titleLine m ++ ['\n'] ++ editLine m ++ ['\n'] ++ viewLine m ++ ['\n']

/-- Modelled from the spec: deserialize the metadata block; exactly three
`key = value` lines, in field order. -/
def decodeMetadata (s : List Char) : Option Metadata :=
  let p1 := readLine s
  let p2 := readLine p1.2
  let p3 := readLine p2.2
  if p3.2 ≠ [] then none
  else
    match expect "title = ".toList p1.1, expect "edit_access = ".toList p2.1,
        expect "view_access = ".toList p3.1 with
    | some t, some e, some v =>
        match decodeQuoted t with
        | some (title, tr) =>
            if tr ≠ ['\n'] then none
            else
              match expectEnd ['\n'] e, expectEnd ['\n'] v with
              | some e', some v' =>
                  match decAccess e', decAccess v' with
                  | some ea, some va => some ⟨title, ea, va⟩
                  | _, _ => none
              | _, _ => none
        | none => none
    | _, _, _ => none

/-! ### Parsing and serialization — `RawArticle::from_reader` and
`RawArticle::write` -/

/-- Source `RawArticle::from_reader` (`src/article.rs` lines 67–106): read one
line, require it to equal one of the two separators, accumulate metadata
lines until a separator line breaks the loop, strip the matched
separator's byte length from the buffer, deserialize the buffer, and
take the entire remaining stream as the markdown body. -/
def fromReader (s : List Char) (path : String) :
    Except ArticleReadError RawArticle :=
  let p := readLine s
  if p.1 ≠ MARKDOWN_SEPARATOR_LINUX ∧ p.1 ≠ MARKDOWN_SEPARATOR_WINDOWS then
    .error (.missingMetadataStart path (String.mk p.1))
  else
    match metaLoop path [] [] p.2 with
    | .error e => .error e
    | .ok (buf, separator_len, rest) =>
        let metadata := truncateBytes buf (byteLen buf - separator_len)
        match decodeMetadata metadata with
        | none => .error (.invalidMetadata path)
        | some m => .ok ⟨m, String.mk rest⟩

/-- Source `RawArticle::write` (`src/article.rs` lines 118–128) generalized over
the separator token used for the two delimiter lines; the source always
passes `MARKDOWN_SEPARATOR_LINUX`. -/
def writeWith (separator : List Char) (a : RawArticle) : List Char :=
  separator ++ encodeMetadata a.metadata ++ separator ++ a.markdown.toList

/-- Source `RawArticle::write` (`src/article.rs` lines 118–128): separator,
encoded metadata, separator, body — the separator is always
`MARKDOWN_SEPARATOR_LINUX`. -/
def write (a : RawArticle) : List Char := writeWith MARKDOWN_SEPARATOR_LINUX a

/-- Source `RawArticle::read_from_path` (`src/article.rs` lines 59–65): the open
step is abstracted as its result (an error kind, or the opened stream);
an open error of kind `NotFound` becomes the document-level `NotFound`,
any other open error becomes `IoError`; an opened stream is parsed with
`from_reader`. -/
def read_from_path (openResult : Except IoErrorKind (List Char))
    (path : String) : Except ArticleReadError RawArticle :=
  match openResult with
  | .error k =>
      match k with
      | .notFound => .error (.notFound path)
      | _ => .error (.ioError k path)
  | .ok stream => fromReader stream path

/-- The stream cut into `read_line` lines: every `'\n'` ends a line, a
final unterminated line (if any) is a line of its own. -/
def linesGo (cur : List Char) : List Char → List (List Char)
  | [] => if cur = [] then [] else [cur]
  | c :: rest =>
      if c = '\n' then (cur ++ ['\n']) :: linesGo [] rest
      else linesGo (cur ++ [c]) rest

/-- The lines of a stream, as `read_line` would deliver them. -/
def linesOf (s : List Char) : List (List Char) := linesGo [] s

/-! ## Atomic file writer — `src/filesystem.rs`

The filesystem is modelled as an association list from paths (strings)
to file contents; directories are not modelled (`create_dir_all` always
succeeds and is a no-op here). -/

/-- The filesystem: each existing file's path mapped to its contents. -/
abbrev FS := List (String × List Char)

/-- Contents of the file at `p`, if it exists. -/
def FS.lookup (fs : FS) (p : String) : Option (List Char) := List.lookup p fs

/-- Remove the file at `p` (no-op if absent). -/
def FS.remove (fs : FS) (p : String) : FS := fs.filter (fun e => e.1 ≠ p)

/-- Create or overwrite the file at `p` with contents `v`. -/
def FS.set (fs : FS) (p : String) (v : List Char) : FS := (p, v) :: fs.remove p

/-- Source `std::fs::remove_file`: fails with `NotFound` when the file is
absent. -/
def removeFile (fs : FS) (p : String) : Except IoErrorKind FS :=
  if (fs.lookup p).isSome then .ok (fs.remove p) else .error .notFound

/-- Source `Path::with_added_extension("tmp")`: the deterministic temporary
path, the target path with the fixed suffix `".tmp"` appended. -/
def withAddedExtensionTmp (p : String) : String := p ++ ".tmp"

/-- Source `FileWriteError` from `src/filesystem.rs` (lines 63–71); the
`source` payload is reduced to its error kind. -/
inductive FileWriteError : Type
  | conflictingWriteInProgress (filepath : String) (tmp_path : String)
  | unhandlableWriteError (source : IoErrorKind) (filepath : String)
deriving DecidableEq

/-- Source `FileWriteError::from_io_error_tmp` (`src/filesystem.rs` lines
73–86): `AlreadyExists` becomes `ConflictingWriteInProgress`, every
other kind `UnhandlableWriteError`. -/
def FileWriteError.from_io_error_tmp (path : String) (source : IoErrorKind)
    (tmp_path : String) : FileWriteError :=
  match source with
  | .alreadyExists => .conflictingWriteInProgress path tmp_path
  | _ => .unhandlableWriteError source path

/-- Source `WritableFile` from `src/filesystem.rs` (lines 10–15): the target
path, the buffered (not yet flushed) writer contents, and the temporary
path. -/
structure WritableFile : Type where
  path : String
  writer : List Char
  tmp_path : String
deriving DecidableEq

/-- Source `WritableFile::open` (`src/filesystem.rs` lines 18–32): derive the
temporary path, exclusively create it (`File::create_new`); if it
already exists the creation error has kind `AlreadyExists` and is mapped
through `from_io_error_tmp`; on success the handle starts with an empty
write buffer and the empty temporary file exists. -/
def WritableFile.openW (fs : FS) (path : String) :
    Except FileWriteError (WritableFile × FS) :=
  let tmp_path := withAddedExtensionTmp path
  if (fs.lookup tmp_path).isSome then
    .error (FileWriteError.from_io_error_tmp path .alreadyExists tmp_path)
  else
    .ok (⟨path, [], tmp_path⟩, fs.set tmp_path [])

/-- Buffered writes to the handle's writer (`file.writer.write(..)`). -/
def WritableFile.write (h : WritableFile) (data : List Char) : WritableFile :=
  { h with writer := h.writer ++ data }

/-- Source `WritableFile::close` (`src/filesystem.rs` lines 34–51): flush the
buffered bytes to the temporary file, rename the temporary file onto the
target path, then clear `tmp_path` so the destructor does not try to
delete it. -/
def WritableFile.close (h : WritableFile) (fs : FS) :
    Except FileWriteError (WritableFile × FS) :=
  let fs1 := fs.set h.tmp_path (((fs.lookup h.tmp_path).getD []) ++ h.writer)
  let fs2 := (fs1.set h.path ((fs1.lookup h.tmp_path).getD [])).remove h.tmp_path
  .ok ({ h with tmp_path := "" }, fs2)

/-- Source `impl Drop for WritableFile` (`src/filesystem.rs` lines 54–61): if
`tmp_path` is not the empty path, try to remove the temporary file,
ignoring any failure (`_ = fs::remove_file(..)`); the destructor itself
never fails (its type is a plain state transformer). -/
def WritableFile.drop (h : WritableFile) (fs : FS) : FS :=
  if h.tmp_path ≠ "" then
    match removeFile fs h.tmp_path with
    | .ok fs' => fs'
    | .error _ => fs
  else fs

/-! ## Lemmas about byte lengths and line reading -/

theorem byteLen_append (a b : List Char) : byteLen (a ++ b) = byteLen a + byteLen b := by
  simp [byteLen]

theorem byteLen_cons (c : Char) (r : List Char) :
    byteLen (c :: r) = c.utf8Size + byteLen r := by
  simp [byteLen]

theorem byteLen_ne_zero {l : List Char} (h : l ≠ []) : byteLen l ≠ 0 := by
  cases l with
  | nil => exact absurd rfl h
  | cons c r =>
      rw [byteLen_cons]
      have := Char.utf8Size_pos c
      omega

theorem eq_nil_of_byteLen {l : List Char} (h : byteLen l = 0) : l = [] := by
  by_contra hne
  exact byteLen_ne_zero hne h

theorem readLine_fst_nil {s : List Char} : (readLine s).1 = [] ↔ s = [] := by
  cases s with
  | nil => simp [readLine]
  | cons c rest => by_cases hc : c = '\n' <;> simp [readLine, hc]

theorem readLine_snd_length {s : List Char} (h : s ≠ []) :
    (readLine s).2.length < s.length := by
  induction s with
  | nil => exact absurd rfl h
  | cons c rest ih =>
      by_cases hc : c = '\n'
      · simp [readLine, hc]
      · simp only [readLine, if_neg hc]
        by_cases hr : rest = []
        · subst hr; simp [readLine]
        · have := ih hr
          simp only [List.length_cons]
          omega

theorem readLine_append {l : List Char} (r : List Char) (h : '\n' ∉ l) :
    readLine (l ++ '\n' :: r) = (l ++ ['\n'], r) := by
  induction l with
  | nil => simp [readLine]
  | cons c t ih =>
      have hc : c ≠ '\n' := by
        intro e; subst e; exact h (List.mem_cons_self _ _)
      have ht : '\n' ∉ t := fun m => h (List.mem_cons_of_mem _ m)
      simp [readLine, hc, ih ht]

/-- Two lists with equal byte length are suffix-comparable only when
equal: the separator is a suffix of `acc ++ l` for a line `l` of the
separator's exact byte length iff the line is the separator itself. -/
theorem suffix_eq_of_byteLen {sep l : List Char} (acc : List Char)
    (h : byteLen sep = byteLen l) : sep.IsSuffix (acc ++ l) ↔ l = sep := by
  constructor
  · intro hs
    have hl : l.IsSuffix (acc ++ l) := ⟨acc, rfl⟩
    rcases List.suffix_or_suffix_of_suffix hl hs with hc | hc
    · obtain ⟨t, ht⟩ := hc
      have hb : byteLen t + byteLen l = byteLen sep := by
        rw [← byteLen_append, ht]
      have ht0 : t = [] := eq_nil_of_byteLen (by omega)
      subst ht0; simpa using ht
    · obtain ⟨t, ht⟩ := hc
      have hb : byteLen t + byteLen sep = byteLen l := by
        rw [← byteLen_append, ht]
      have ht0 : t = [] := eq_nil_of_byteLen (by omega)
      subst ht0; simpa using ht.symm
  · rintro rfl
    exact ⟨acc, rfl⟩

/-- The two break conditions of the metadata loop, rephrased: a line of
the right byte count makes the buffer end with a separator iff the line
is exactly that separator. -/
theorem sep_cond_linux (acc l : List Char) :
    (byteLen l = 4 ∧ MARKDOWN_SEPARATOR_LINUX.IsSuffix (acc ++ l)) ↔
      l = MARKDOWN_SEPARATOR_LINUX := by
  constructor
  · rintro ⟨h4, hs⟩
    exact (suffix_eq_of_byteLen acc (by rw [h4]; decide)).1 hs
  · rintro rfl
    exact ⟨by decide, acc, rfl⟩

theorem sep_cond_windows (acc l : List Char) :
    (byteLen l = 5 ∧ MARKDOWN_SEPARATOR_WINDOWS.IsSuffix (acc ++ l)) ↔
      l = MARKDOWN_SEPARATOR_WINDOWS := by
  constructor
  · rintro ⟨h5, hs⟩
    exact (suffix_eq_of_byteLen acc (by rw [h5]; decide)).1 hs
  · rintro rfl
    exact ⟨by decide, acc, rfl⟩

theorem readLine_cons_nl (rest : List Char) : readLine ('\n' :: rest) = (['\n'], rest) := by
  simp [readLine]

theorem readLine_cons {c : Char} (rest : List Char) (hc : c ≠ '\n') :
    readLine (c :: rest) = (c :: (readLine rest).1, (readLine rest).2) := by
  simp [readLine, hc]

theorem metaLoop_nil (path : String) (acc cur : List Char) :
    metaLoop path acc cur [] =
      (if byteLen cur = 0 then .error (.missingMetadataEnd path)
       else if byteLen cur = 4 ∧ MARKDOWN_SEPARATOR_LINUX.IsSuffix (acc ++ cur) then
         .ok (acc ++ cur, 4, [])
       else if byteLen cur = 5 ∧ MARKDOWN_SEPARATOR_WINDOWS.IsSuffix (acc ++ cur) then
         .ok (acc ++ cur, 5, [])
       else .error (.missingMetadataEnd path)) := rfl

theorem metaLoop_cons_nl (path : String) (acc cur rest : List Char) :
    metaLoop path acc cur ('\n' :: rest) =
      (if byteLen (cur ++ ['\n']) = 4 ∧
          MARKDOWN_SEPARATOR_LINUX.IsSuffix (acc ++ (cur ++ ['\n'])) then
         .ok (acc ++ (cur ++ ['\n']), 4, rest)
       else if byteLen (cur ++ ['\n']) = 5 ∧
          MARKDOWN_SEPARATOR_WINDOWS.IsSuffix (acc ++ (cur ++ ['\n'])) then
         .ok (acc ++ (cur ++ ['\n']), 5, rest)
       else metaLoop path (acc ++ (cur ++ ['\n'])) [] rest) := by
  rw [metaLoop]
  rw [if_pos rfl]

theorem metaLoop_cons {c : Char} (path : String) (acc cur rest : List Char)
    (hc : c ≠ '\n') :
    metaLoop path acc cur (c :: rest) = metaLoop path acc (cur ++ [c]) rest := by
  rw [metaLoop]
  rw [if_neg hc]

/-- The metadata loop, one whole `read_line` at a time: it errors at a
zero-length read, breaks (with separator length 4 or 5) exactly when the
line just read is exactly that separator token, and otherwise appends
the line to the buffer and continues. -/
theorem metaLoop_line (path : String) (s : List Char) : ∀ acc cur,
    metaLoop path acc cur s =
      (if cur ++ (readLine s).1 = [] then .error (.missingMetadataEnd path)
       else if cur ++ (readLine s).1 = MARKDOWN_SEPARATOR_LINUX then
         .ok (acc ++ (cur ++ (readLine s).1), 4, (readLine s).2)
       else if cur ++ (readLine s).1 = MARKDOWN_SEPARATOR_WINDOWS then
         .ok (acc ++ (cur ++ (readLine s).1), 5, (readLine s).2)
       else metaLoop path (acc ++ (cur ++ (readLine s).1)) [] (readLine s).2) := by
  induction s with
  | nil =>
      intro acc cur
      simp only [readLine, List.append_nil]
      rw [metaLoop_nil]
      by_cases hcur : cur = []
      · subst hcur
        rw [if_pos rfl, if_pos (by simp [byteLen])]
      · rw [if_neg hcur, if_neg (byteLen_ne_zero hcur)]
        by_cases hL : cur = MARKDOWN_SEPARATOR_LINUX
        · rw [if_pos ((sep_cond_linux acc cur).2 hL), if_pos hL]
        · rw [if_neg (fun hconj => hL ((sep_cond_linux acc cur).1 hconj)), if_neg hL]
          by_cases hW : cur = MARKDOWN_SEPARATOR_WINDOWS
          · rw [if_pos ((sep_cond_windows acc cur).2 hW), if_pos hW]
          · rw [if_neg (fun hconj => hW ((sep_cond_windows acc cur).1 hconj)), if_neg hW]
            rw [metaLoop_nil]
            rw [if_pos (by simp [byteLen])]
  | cons c rest ih =>
      intro acc cur
      by_cases hc : c = '\n'
      · subst hc
        rw [metaLoop_cons_nl, readLine_cons_nl]
        have hne : cur ++ ['\n'] ≠ [] := by simp
        rw [if_neg hne]
        by_cases hL : cur ++ ['\n'] = MARKDOWN_SEPARATOR_LINUX
        · rw [if_pos ((sep_cond_linux acc _).2 hL), if_pos hL]
        · rw [if_neg (fun hconj => hL ((sep_cond_linux acc _).1 hconj)), if_neg hL]
          by_cases hW : cur ++ ['\n'] = MARKDOWN_SEPARATOR_WINDOWS
          · rw [if_pos ((sep_cond_windows acc _).2 hW), if_pos hW]
          · rw [if_neg (fun hconj => hW ((sep_cond_windows acc _).1 hconj)), if_neg hW]
      · rw [metaLoop_cons path acc cur rest hc, readLine_cons rest hc]
        rw [ih acc (cur ++ [c])]
        simp only [List.append_assoc, List.cons_append, List.nil_append]

/-! ## Running the metadata loop over whole lines -/

theorem readLine_sep_linux (r : List Char) :
    readLine (MARKDOWN_SEPARATOR_LINUX ++ r) = (MARKDOWN_SEPARATOR_LINUX, r) := by
  have h : MARKDOWN_SEPARATOR_LINUX ++ r = ['+', '+', '+'] ++ '\n' :: r := rfl
  rw [h, readLine_append r (by decide)]
  rfl

theorem readLine_sep_windows (r : List Char) :
    readLine (MARKDOWN_SEPARATOR_WINDOWS ++ r) = (MARKDOWN_SEPARATOR_WINDOWS, r) := by
  have h : MARKDOWN_SEPARATOR_WINDOWS ++ r = ['+', '+', '+', '\r'] ++ '\n' :: r := rfl
  rw [h, readLine_append r (by decide)]
  rfl

theorem metaLoop_break_linux (path : String) (acc r : List Char) :
    metaLoop path acc [] (MARKDOWN_SEPARATOR_LINUX ++ r) =
      .ok (acc ++ MARKDOWN_SEPARATOR_LINUX, 4, r) := by
  rw [metaLoop_line path _ acc [], readLine_sep_linux]
  simp only [List.nil_append]
  rw [if_neg (show ¬(MARKDOWN_SEPARATOR_LINUX = ([] : List Char)) by decide)]
  simp

theorem metaLoop_break_windows (path : String) (acc r : List Char) :
    metaLoop path acc [] (MARKDOWN_SEPARATOR_WINDOWS ++ r) =
      .ok (acc ++ MARKDOWN_SEPARATOR_WINDOWS, 5, r) := by
  rw [metaLoop_line path _ acc [], readLine_sep_windows]
  simp only [List.nil_append]
  rw [if_neg (show ¬(MARKDOWN_SEPARATOR_WINDOWS = ([] : List Char)) by decide)]
  rw [if_neg (show ¬(MARKDOWN_SEPARATOR_WINDOWS = MARKDOWN_SEPARATOR_LINUX) by decide)]
  simp

theorem metaLoop_skip (path : String) (acc content r : List Char)
    (hnl : '\n' ∉ content)
    (hL : content ++ ['\n'] ≠ MARKDOWN_SEPARATOR_LINUX)
    (hW : content ++ ['\n'] ≠ MARKDOWN_SEPARATOR_WINDOWS) :
    metaLoop path acc [] (content ++ '\n' :: r) =
      metaLoop path (acc ++ (content ++ ['\n'])) [] r := by
  rw [metaLoop_line path _ acc [], readLine_append r hnl]
  simp only [List.nil_append]
  rw [if_neg (by simp), if_neg hL, if_neg hW]

theorem truncateBytes_append (x : List Char) {rest : List Char} (hr : rest ≠ []) :
    truncateBytes (x ++ rest) (byteLen x) = x := by
  induction x with
  | nil =>
      cases rest with
      | nil => exact absurd rfl hr
      | cons c t =>
          simp only [List.nil_append]
          rw [show byteLen ([] : List Char) = 0 from rfl, truncateBytes]
          rw [if_neg (by have := Char.utf8Size_pos c; omega)]
  | cons c t ih =>
      simp only [List.cons_append, byteLen_cons]
      rw [truncateBytes, if_pos (Nat.le_add_right _ _)]
      have harith : c.utf8Size + byteLen t - c.utf8Size = byteLen t := by omega
      rw [harith, ih]

/-! ## Properties of the modelled key-value codec -/

theorem esc_nil : esc [] = [] := rfl

theorem esc_cons (c : Char) (s : List Char) : esc (c :: s) = escChar c ++ esc s := by
  simp [esc]

/-- Each character is encoded either as a backslash pair that `unescChar`
inverts, or as itself when it needs no escaping. -/
theorem escChar_spec (c : Char) :
    (∃ d, escChar c = ['\\', d] ∧ unescChar d = c) ∨
      (escChar c = [c] ∧ c ≠ '\\' ∧ c ≠ '"') := by
  unfold escChar
  split_ifs with h1 h2 h3 h4
  · subst h1; exact .inl ⟨'\\', rfl, by decide⟩
  · subst h2; exact .inl ⟨'"', rfl, by decide⟩
  · subst h3; exact .inl ⟨'n', rfl, by decide⟩
  · subst h4; exact .inl ⟨'r', rfl, by decide⟩
  · exact .inr ⟨rfl, h1, h2⟩

theorem nl_not_mem_escChar (c : Char) : '\n' ∉ escChar c := by
  intro h
  unfold escChar at h
  split_ifs at h with h1 h2 h3 h4 <;> simp_all
  exact h3 h.symm

theorem nl_not_mem_esc {s : List Char} : '\n' ∉ esc s := by
  intro h
  induction s with
  | nil => simp [esc] at h
  | cons c t ih =>
      rw [esc_cons] at h
      rcases List.mem_append.1 h with h' | h'
      · exact nl_not_mem_escChar c h'
      · exact ih h'

theorem nl_not_mem_quoteStr (t : String) : '\n' ∉ quoteStr t := by
  intro h
  simp only [quoteStr, List.mem_cons, List.mem_append, List.mem_singleton] at h
  rcases h with h | h | h
  · exact absurd h (by decide)
  · exact nl_not_mem_esc h
  · exact absurd h (by decide)

theorem joinComma_cons₂ (x y : List Char) (ys : List (List Char)) :
    joinComma (x :: y :: ys) = x ++ ',' :: joinComma (y :: ys) := rfl

theorem mem_joinComma {c : Char} {xs : List (List Char)} (h : c ∈ joinComma xs) :
    (∃ x ∈ xs, c ∈ x) ∨ c = ',' := by
  induction xs with
  | nil => simp [joinComma] at h
  | cons x xs ih =>
      cases xs with
      | nil =>
          simp only [joinComma] at h
          exact .inl ⟨x, List.mem_cons_self _ _, h⟩
      | cons y ys =>
          rw [joinComma_cons₂] at h
          rcases List.mem_append.1 h with hx | hrest
          · exact .inl ⟨x, List.mem_cons_self _ _, hx⟩
          · rcases List.mem_cons.1 hrest with hcomma | htail
            · exact .inr hcomma
            · rcases ih htail with ⟨z, hz, hc2⟩ | hc2
              · exact .inl ⟨z, List.mem_cons_of_mem _ hz, hc2⟩
              · exact .inr hc2

theorem nl_not_mem_encAccess (a : Access) : '\n' ∉ encAccess a := by
  intro h
  cases a with
  | anonymous => exact absurd h (by decide)
  | authenticated => exact absurd h (by decide)
  | accounts l =>
      simp only [encAccess, List.mem_append] at h
      rcases h with (h | h) | h
      · exact absurd h (by decide)
      · rcases mem_joinComma h with ⟨x, hx, hc⟩ | hc
        · obtain ⟨u, _, rfl⟩ := List.mem_map.1 hx
          exact nl_not_mem_quoteStr u hc
        · exact absurd hc (by decide)
      · exact absurd h (by decide)

theorem nl_not_mem_titleLine (m : Metadata) : '\n' ∉ titleLine m := by
  intro h
  simp only [titleLine, List.mem_append] at h
  rcases h with h | h
  · exact absurd h (by decide)
  · exact nl_not_mem_quoteStr m.title h

theorem nl_not_mem_editLine (m : Metadata) : '\n' ∉ editLine m := by
  intro h
  simp only [editLine, List.mem_append] at h
  rcases h with h | h
  · exact absurd h (by decide)
  · exact nl_not_mem_encAccess _ h

theorem nl_not_mem_viewLine (m : Metadata) : '\n' ∉ viewLine m := by
  intro h
  simp only [viewLine, List.mem_append] at h
  rcases h with h | h
  · exact absurd h (by decide)
  · exact nl_not_mem_encAccess _ h

/-- Any line of at least six characters differs from both separators. -/
theorem long_line_ne_sep {l : List Char} (h : 6 ≤ l.length) :
    l ≠ MARKDOWN_SEPARATOR_LINUX ∧ l ≠ MARKDOWN_SEPARATOR_WINDOWS := by
  constructor <;> rintro rfl <;> revert h <;> decide

theorem length_quoteStr (t : String) : 2 ≤ (quoteStr t).length := by
  simp [quoteStr]

theorem titleLine_long (m : Metadata) : 6 ≤ (titleLine m ++ ['\n']).length := by
  have h8 : ("title = ".toList).length = 8 := by decide
  simp only [titleLine, List.length_append, h8, List.length_singleton]
  omega

theorem editLine_long (m : Metadata) : 6 ≤ (editLine m ++ ['\n']).length := by
  have h14 : ("edit_access = ".toList).length = 14 := by decide
  simp only [editLine, List.length_append, h14, List.length_singleton]
  omega

theorem viewLine_long (m : Metadata) : 6 ≤ (viewLine m ++ ['\n']).length := by
  have h14 : ("view_access = ".toList).length = 14 := by decide
  simp only [viewLine, List.length_append, h14, List.length_singleton]
  omega

theorem expect_append (p r : List Char) : expect p (p ++ r) = some r := by
  induction p with
  | nil => rfl
  | cons c t ih => simpa [expect] using ih

theorem expectEnd_append (pat x : List Char) : expectEnd pat (x ++ pat) = some x := by
  simp [expectEnd, List.reverse_append, expect_append]

theorem quotedContent_step_esc (cur : List Char) (d : Char) (rest : List Char) :
    quotedContent cur ('\\' :: d :: rest) =
      quotedContent (cur ++ [unescChar d]) rest := by
  rw [quotedContent]
  simp

theorem quotedContent_step_quote (cur rest : List Char) :
    quotedContent cur ('"' :: rest) = some (String.mk cur, rest) := by
  rw [quotedContent.eq_def]
  simp

theorem quotedContent_step (cur : List Char) {c : Char} (rest : List Char)
    (h1 : c ≠ '\\') (h2 : c ≠ '"') :
    quotedContent cur (c :: rest) = quotedContent (cur ++ [c]) rest := by
  rw [quotedContent.eq_def]
  simp [h1, h2]

theorem quotedContent_esc (n : List Char) : ∀ cur r,
    quotedContent cur (esc n ++ '"' :: r) = some (String.mk (cur ++ n), r) := by
  induction n with
  | nil =>
      intro cur r
      rw [esc_nil, List.nil_append, quotedContent_step_quote, List.append_nil]
  | cons c t ih =>
      intro cur r
      rw [esc_cons, List.append_assoc]
      rcases escChar_spec c with ⟨d, hd, hud⟩ | ⟨hc, h1, h2⟩
      · rw [hd]
        rw [show (['\\', d] : List Char) ++ (esc t ++ '"' :: r) =
          '\\' :: d :: (esc t ++ '"' :: r) from rfl]
        rw [quotedContent_step_esc, hud, ih (cur ++ [c]) r, List.append_assoc]
        rfl
      · rw [hc]
        rw [show ([c] : List Char) ++ (esc t ++ '"' :: r) =
          c :: (esc t ++ '"' :: r) from rfl]
        rw [quotedContent_step cur _ h1 h2, ih (cur ++ [c]) r, List.append_assoc]
        rfl

theorem decodeQuoted_quoteStr (t : String) (r : List Char) :
    decodeQuoted (quoteStr t ++ r) = some (t, r) := by
  have h : quoteStr t ++ r = '"' :: (esc t.toList ++ '"' :: r) := by
    simp [quoteStr]
  rw [h]
  rw [show decodeQuoted ('"' :: (esc t.toList ++ '"' :: r)) =
    quotedContent [] (esc t.toList ++ '"' :: r) from rfl]
  rw [quotedContent_esc t.toList [] r, List.nil_append]
  rfl

theorem pnGo_open (done : List String) (rest : List Char) :
    parseNamesGo .expectOpen done ('"' :: rest) =
      parseNamesGo (.inside []) done rest := by
  rw [parseNamesGo]
  simp

theorem pnGo_inside_escStep (cur : List Char) (done : List String) (d : Char)
    (rest : List Char) :
    parseNamesGo (.inside cur) done ('\\' :: d :: rest) =
      parseNamesGo (.inside (cur ++ [unescChar d])) done rest := by
  rw [parseNamesGo]
  simp

theorem pnGo_inside_quote (cur : List Char) (done : List String) (rest : List Char) :
    parseNamesGo (.inside cur) done ('"' :: rest) =
      parseNamesGo .closed (done ++ [String.mk cur]) rest := by
  rw [parseNamesGo.eq_def]
  simp

theorem pnGo_inside_step (cur : List Char) (done : List String) {c : Char}
    (rest : List Char) (h1 : c ≠ '\\') (h2 : c ≠ '"') :
    parseNamesGo (.inside cur) done (c :: rest) =
      parseNamesGo (.inside (cur ++ [c])) done rest := by
  rw [parseNamesGo.eq_def]
  simp [h1, h2]

theorem pnGo_closed_nil (done : List String) :
    parseNamesGo .closed done [] = some done := rfl

theorem pnGo_closed_comma (done : List String) (rest : List Char) :
    parseNamesGo .closed done (',' :: rest) =
      parseNamesGo .expectOpen done rest := by
  rw [parseNamesGo]
  simp

theorem pnGo_inside_escRun (n : List Char) : ∀ cur done r,
    parseNamesGo (.inside cur) done (esc n ++ '"' :: r) =
      parseNamesGo .closed (done ++ [String.mk (cur ++ n)]) r := by
  induction n with
  | nil =>
      intro cur done r
      rw [esc_nil, List.nil_append, pnGo_inside_quote, List.append_nil]
  | cons c t ih =>
      intro cur done r
      rw [esc_cons, List.append_assoc]
      rcases escChar_spec c with ⟨d, hd, hud⟩ | ⟨hc, h1, h2⟩
      · rw [hd]
        rw [show (['\\', d] : List Char) ++ (esc t ++ '"' :: r) =
          '\\' :: d :: (esc t ++ '"' :: r) from rfl]
        rw [pnGo_inside_escStep, hud, ih (cur ++ [c]) done r, List.append_assoc]
        rfl
      · rw [hc]
        rw [show ([c] : List Char) ++ (esc t ++ '"' :: r) =
          c :: (esc t ++ '"' :: r) from rfl]
        rw [pnGo_inside_step cur done _ h1 h2, ih (cur ++ [c]) done r,
          List.append_assoc]
        rfl

theorem pn_list (l : List Username) : ∀ done, l ≠ [] →
    parseNamesGo .expectOpen done (joinComma (l.map quoteStr)) =
      some (done ++ l) := by
  induction l with
  | nil => intro done h; exact absurd rfl h
  | cons n t ih =>
      intro done _
      cases t with
      | nil =>
          rw [show joinComma ((n :: []).map quoteStr) = quoteStr n from rfl]
          rw [show quoteStr n = '"' :: (esc n.toList ++ '"' :: []) from by
            simp [quoteStr]]
          rw [pnGo_open, pnGo_inside_escRun n.toList [] done, pnGo_closed_nil]
          simp
      | cons m ts =>
          rw [show (n :: m :: ts).map quoteStr =
            quoteStr n :: quoteStr m :: ts.map quoteStr from rfl]
          rw [joinComma_cons₂]
          rw [show quoteStr n ++ ',' :: joinComma (quoteStr m :: ts.map quoteStr) =
            '"' :: (esc n.toList ++ '"' ::
              (',' :: joinComma (quoteStr m :: ts.map quoteStr))) from by
            simp [quoteStr]]
          rw [pnGo_open, pnGo_inside_escRun n.toList [] done, pnGo_closed_comma]
          rw [show quoteStr m :: ts.map quoteStr = (m :: ts).map quoteStr from rfl]
          rw [ih (done ++ [String.mk ([] ++ n.toList)]) (by simp)]
          simp

theorem length_encAccess_accounts (l : List Username) :
    17 ≤ (encAccess (.accounts l)).length := by
  have h14 : ("\x7b Accounts = [".toList).length = 14 := by decide
  have h3 : ("] \x7d".toList).length = 3 := by decide
  simp only [encAccess, List.length_append, h14, h3]
  omega

theorem joinComma_quoteStr_ne_nil (n : Username) (t : List Username) :
    joinComma ((n :: t).map quoteStr) ≠ [] := by
  cases t with
  | nil =>
      rw [show joinComma ((n :: []).map quoteStr) = quoteStr n from rfl, quoteStr]
      simp
  | cons m ts =>
      rw [show (n :: m :: ts).map quoteStr =
        quoteStr n :: quoteStr m :: ts.map quoteStr from rfl]
      rw [joinComma_cons₂, quoteStr]
      simp

theorem decAccess_enc (a : Access) : decAccess (encAccess a) = some a := by
  cases a with
  | anonymous => decide
  | authenticated => decide
  | accounts l =>
      have hlen := length_encAccess_accounts l
      have h1 : encAccess (.accounts l) ≠ "\"Anonymous\"".toList := by
        intro e; rw [e] at hlen; exact absurd hlen (by decide)
      have h2 : encAccess (.accounts l) ≠ "\"Authenticated\"".toList := by
        intro e; rw [e] at hlen; exact absurd hlen (by decide)
      rw [decAccess, if_neg h1, if_neg h2]
      have hs : encAccess (.accounts l) =
          "\x7b Accounts = [".toList ++
            (joinComma (l.map quoteStr) ++ "] \x7d".toList) := by
        simp [encAccess]
      rw [hs, expect_append]
      simp only [expectEnd_append]
      cases l with
      | nil => rfl
      | cons n t =>
          rw [if_neg (joinComma_quoteStr_ne_nil n t)]
          rw [parseNames, pn_list (n :: t) [] (by simp)]
          rfl

theorem encodeMetadata_append (m : Metadata) (X : List Char) :
    encodeMetadata m ++ X =
      titleLine m ++ '\n' ::
        (editLine m ++ '\n' :: (viewLine m ++ '\n' :: X)) := by
  simp [encodeMetadata]

theorem decodeMetadata_enc (m : Metadata) :
    decodeMetadata (encodeMetadata m) = some m := by
  have hstream : encodeMetadata m =
      titleLine m ++ '\n' ::
        (editLine m ++ '\n' :: (viewLine m ++ '\n' :: ([] : List Char))) := by
    have := encodeMetadata_append m []
    simpa using this
  rw [decodeMetadata, hstream]
  rw [readLine_append _ (nl_not_mem_titleLine m)]
  simp only
  rw [readLine_append _ (nl_not_mem_editLine m)]
  simp only
  rw [readLine_append _ (nl_not_mem_viewLine m)]
  simp only
  rw [if_neg (by simp)]
  rw [show titleLine m ++ ['\n'] =
    "title = ".toList ++ (quoteStr m.title ++ ['\n']) from by simp [titleLine]]
  rw [expect_append]
  rw [show editLine m ++ ['\n'] =
    "edit_access = ".toList ++ (encAccess m.edit_access ++ ['\n']) from by
    simp [editLine]]
  rw [expect_append]
  rw [show viewLine m ++ ['\n'] =
    "view_access = ".toList ++ (encAccess m.view_access ++ ['\n']) from by
    simp [viewLine]]
  rw [expect_append]
  simp only
  rw [show quoteStr m.title ++ ['\n'] = quoteStr m.title ++ ['\n'] ++ [] from by simp]
  rw [show quoteStr m.title ++ ['\n'] ++ [] = quoteStr m.title ++ ('\n' :: []) from by
    simp]
  rw [decodeQuoted_quoteStr]
  simp only
  rw [if_neg (by simp)]
  rw [show encAccess m.edit_access ++ ['\n'] =
    encAccess m.edit_access ++ ['\n'] from rfl]
  rw [expectEnd_append ['\n'] (encAccess m.edit_access)]
  rw [expectEnd_append ['\n'] (encAccess m.view_access)]
  simp only
  rw [decAccess_enc, decAccess_enc]

theorem metaLoop_enc_linux (path : String) (m : Metadata) (r : List Char) :
    metaLoop path [] [] (encodeMetadata m ++ (MARKDOWN_SEPARATOR_LINUX ++ r)) =
      .ok (encodeMetadata m ++ MARKDOWN_SEPARATOR_LINUX, 4, r) := by
  rw [encodeMetadata_append]
  rw [metaLoop_skip path [] (titleLine m) _ (nl_not_mem_titleLine m)
    (long_line_ne_sep (titleLine_long m)).1 (long_line_ne_sep (titleLine_long m)).2]
  rw [metaLoop_skip path _ (editLine m) _ (nl_not_mem_editLine m)
    (long_line_ne_sep (editLine_long m)).1 (long_line_ne_sep (editLine_long m)).2]
  rw [metaLoop_skip path _ (viewLine m) _ (nl_not_mem_viewLine m)
    (long_line_ne_sep (viewLine_long m)).1 (long_line_ne_sep (viewLine_long m)).2]
  rw [metaLoop_break_linux]
  congr 1
  simp [encodeMetadata]

theorem metaLoop_enc_windows (path : String) (m : Metadata) (r : List Char) :
    metaLoop path [] [] (encodeMetadata m ++ (MARKDOWN_SEPARATOR_WINDOWS ++ r)) =
      .ok (encodeMetadata m ++ MARKDOWN_SEPARATOR_WINDOWS, 5, r) := by
  rw [encodeMetadata_append]
  rw [metaLoop_skip path [] (titleLine m) _ (nl_not_mem_titleLine m)
    (long_line_ne_sep (titleLine_long m)).1 (long_line_ne_sep (titleLine_long m)).2]
  rw [metaLoop_skip path _ (editLine m) _ (nl_not_mem_editLine m)
    (long_line_ne_sep (editLine_long m)).1 (long_line_ne_sep (editLine_long m)).2]
  rw [metaLoop_skip path _ (viewLine m) _ (nl_not_mem_viewLine m)
    (long_line_ne_sep (viewLine_long m)).1 (long_line_ne_sep (viewLine_long m)).2]
  rw [metaLoop_break_windows]
  congr 1
  simp [encodeMetadata]

theorem strip_linux (x : List Char) :
    truncateBytes (x ++ MARKDOWN_SEPARATOR_LINUX)
      (byteLen (x ++ MARKDOWN_SEPARATOR_LINUX) - 4) = x := by
  rw [byteLen_append]
  rw [show byteLen MARKDOWN_SEPARATOR_LINUX = 4 from by decide]
  rw [show byteLen x + 4 - 4 = byteLen x from by omega]
  exact truncateBytes_append x (by decide)

theorem strip_windows (x : List Char) :
    truncateBytes (x ++ MARKDOWN_SEPARATOR_WINDOWS)
      (byteLen (x ++ MARKDOWN_SEPARATOR_WINDOWS) - 5) = x := by
  rw [byteLen_append]
  rw [show byteLen MARKDOWN_SEPARATOR_WINDOWS = 5 from by decide]
  rw [show byteLen x + 5 - 5 = byteLen x from by omega]
  exact truncateBytes_append x (by decide)

theorem parse_writeWith_linux (a : RawArticle) (path : String) :
    fromReader (writeWith MARKDOWN_SEPARATOR_LINUX a) path = .ok a := by
  have hw : writeWith MARKDOWN_SEPARATOR_LINUX a =
      MARKDOWN_SEPARATOR_LINUX ++ (encodeMetadata a.metadata ++
        (MARKDOWN_SEPARATOR_LINUX ++ a.markdown.toList)) := by
    simp [writeWith]
  rw [hw]
  simp only [fromReader, readLine_sep_linux]
  rw [if_neg (by simp)]
  rw [metaLoop_enc_linux]
  simp only [strip_linux]
  rw [decodeMetadata_enc]
  rfl

theorem parse_writeWith_windows (a : RawArticle) (path : String) :
    fromReader (writeWith MARKDOWN_SEPARATOR_WINDOWS a) path = .ok a := by
  have hw : writeWith MARKDOWN_SEPARATOR_WINDOWS a =
      MARKDOWN_SEPARATOR_WINDOWS ++ (encodeMetadata a.metadata ++
        (MARKDOWN_SEPARATOR_WINDOWS ++ a.markdown.toList)) := by
    simp [writeWith]
  rw [hw]
  simp only [fromReader, readLine_sep_windows]
  rw [if_neg (by simp)]
  rw [metaLoop_enc_windows]
  simp only [strip_windows]
  rw [decodeMetadata_enc]
  rfl

/-! ## Lines of a stream and exhaustion of the metadata loop -/

theorem linesGo_nil (cur : List Char) :
    linesGo cur [] = if cur = [] then [] else [cur] := rfl

theorem linesGo_cons_nl (cur rest : List Char) :
    linesGo cur ('\n' :: rest) = (cur ++ ['\n']) :: linesGo [] rest := by
  rw [linesGo]
  simp

theorem linesGo_cons (cur : List Char) {c : Char} (rest : List Char) (hc : c ≠ '\n') :
    linesGo cur (c :: rest) = linesGo (cur ++ [c]) rest := by
  rw [linesGo, if_neg hc]

theorem linesGo_readLine (s : List Char) : ∀ cur,
    linesGo cur s =
      (if cur ++ (readLine s).1 = [] then []
       else (cur ++ (readLine s).1) :: linesOf (readLine s).2) := by
  induction s with
  | nil =>
      intro cur
      simp only [readLine, List.append_nil]
      rw [linesGo_nil]
      by_cases hc : cur = []
      · rw [if_pos hc, if_pos hc]
      · rw [if_neg hc, if_neg hc]
        rfl
  | cons c rest ih =>
      intro cur
      by_cases hc : c = '\n'
      · subst hc
        rw [linesGo_cons_nl, readLine_cons_nl]
        rw [if_neg (by simp)]
        rfl
      · rw [linesGo_cons cur rest hc, readLine_cons rest hc, ih (cur ++ [c])]
        simp only [List.append_assoc, List.cons_append, List.nil_append]

theorem linesOf_cons {s : List Char} (hs : s ≠ []) :
    linesOf s = (readLine s).1 :: linesOf (readLine s).2 := by
  have hfst : (readLine s).1 ≠ [] := fun e => hs (readLine_fst_nil.1 e)
  rw [linesOf, linesGo_readLine s []]
  simp only [List.nil_append]
  rw [if_neg hfst]

/-- If no line of the stream is one of the two separator tokens, the
metadata loop consumes the whole stream and reports the missing
metadata end. -/
theorem metaLoop_no_sep (path : String) : ∀ (n : Nat) (s acc : List Char),
    s.length ≤ n →
    (∀ l ∈ linesOf s,
      l ≠ MARKDOWN_SEPARATOR_LINUX ∧ l ≠ MARKDOWN_SEPARATOR_WINDOWS) →
    metaLoop path acc [] s = .error (.missingMetadataEnd path) := by
  intro n
  induction n with
  | zero =>
      intro s acc hlen _
      have hs : s = [] := List.eq_nil_of_length_eq_zero (Nat.le_zero.1 hlen)
      subst hs
      rfl
  | succ n ih =>
      intro s acc hlen hall
      by_cases hs : s = []
      · subst hs; rfl
      · rw [metaLoop_line path s acc []]
        simp only [List.nil_append]
        have hfst : (readLine s).1 ≠ [] := fun e => hs (readLine_fst_nil.1 e)
        have hmem : (readLine s).1 ∈ linesOf s := by
          rw [linesOf_cons hs]; exact List.mem_cons_self _ _
        obtain ⟨hL, hW⟩ := hall _ hmem
        rw [if_neg hfst, if_neg hL, if_neg hW]
        apply ih
        · have := readLine_snd_length hs; omega
        · intro l hl
          exact hall l (by rw [linesOf_cons hs]; exact List.mem_cons_of_mem _ hl)

/-! ## Lemmas about the modelled filesystem -/

theorem lookup_cons (q k : String) (v : List Char) (t : FS) :
    List.lookup q ((k, v) :: t) = if q == k then some v else List.lookup q t := by
  cases hb : q == k <;> simp [List.lookup, hb]

theorem FS.lookup_set_self (fs : FS) (p : String) (v : List Char) :
    (fs.set p v).lookup p = some v := by
  rw [FS.set, FS.lookup, lookup_cons]
  simp

theorem FS.lookup_remove_self (fs : FS) (p : String) :
    (fs.remove p).lookup p = none := by
  induction fs with
  | nil => rfl
  | cons e t ih =>
      obtain ⟨k, v⟩ := e
      rw [FS.remove, List.filter_cons]
      by_cases he : k = p
      · subst he
        rw [if_neg (by simp)]
        exact ih
      · rw [if_pos (by simp [he]), FS.lookup, lookup_cons]
        rw [if_neg (by simp [Ne.symm he])]
        exact ih

theorem FS.lookup_remove_ne (fs : FS) {p q : String} (hq : q ≠ p) :
    (fs.remove p).lookup q = fs.lookup q := by
  induction fs with
  | nil => rfl
  | cons e t ih =>
      obtain ⟨k, v⟩ := e
      rw [FS.remove, List.filter_cons]
      by_cases he : k = p
      · rw [if_neg (by simp [he])]
        rw [show FS.lookup ((k, v) :: t) q = List.lookup q ((k, v) :: t) from rfl]
        rw [lookup_cons, if_neg (by simp [he, hq])]
        exact ih
      · rw [if_pos (by simp [he])]
        rw [show FS.lookup ((k, v) :: List.filter (fun e => decide (e.1 ≠ p)) t) q =
          List.lookup q ((k, v) :: List.filter (fun e => decide (e.1 ≠ p)) t) from rfl]
        rw [show FS.lookup ((k, v) :: t) q = List.lookup q ((k, v) :: t) from rfl]
        rw [lookup_cons, lookup_cons]
        by_cases hqk : q = k
        · rw [if_pos (by simp [hqk]), if_pos (by simp [hqk])]
        · rw [if_neg (by simp [hqk]), if_neg (by simp [hqk])]
          exact ih

theorem FS.lookup_set_ne (fs : FS) {p q : String} (hq : q ≠ p) (v : List Char) :
    (fs.set p v).lookup q = fs.lookup q := by
  rw [FS.set, FS.lookup, lookup_cons, if_neg (by simp [hq])]
  exact FS.lookup_remove_ne fs hq

theorem tmp_ne_empty (p : String) : p ++ ".tmp" ≠ "" := by
  intro e
  have hlen := congrArg String.length e
  rw [String.length_append] at hlen
  have h4 : ".tmp".length = 4 := by decide
  have h0 : "".length = 0 := by decide
  rw [h4, h0] at hlen
  omega

theorem path_ne_tmp (p : String) : p ≠ p ++ ".tmp" := by
  intro e
  have hlen := congrArg String.length e
  rw [String.length_append] at hlen
  have h4 : ".tmp".length = 4 := by decide
  rw [h4] at hlen
  omega

/-! ## Claim theorems -/

theorem check_accounts_eq (n : Username) (names : List Username) :
    (User.account n).check_authorization (.accounts names) =
      (if n ∈ names then Authorization.authorized else Authorization.unauthorized) := by
  have hshow : (User.account n).check_authorization (.accounts names) =
      (match List.elem n names with
       | true => Authorization.authorized
       | false => Authorization.unauthorized) := rfl
  rw [hshow]
  by_cases hm : n ∈ names
  · rw [List.elem_eq_true_of_mem hm, if_pos hm]
  · have hc : List.elem n names = false := by
      cases hc : List.elem n names
      · rfl
      · exact absurd (List.mem_of_elem_eq_true hc) hm
    rw [hc, if_neg hm]

/-- C1: `check_authorization` realizes the §4.5 table exactly: rule
`Anonymous` always gives `Authorized`; identity `SingleUser` (the spec's
SingleActor) always gives `Authorized`; an `Account` (Named) identity
against `Authenticated` gives `Authorized`; an `Account n` against
`Accounts names` gives `Authorized` iff `n` is a member of `names` and
`Unauthorized` otherwise; the `Anonymous` identity (Unauthenticated)
against any rule other than rule `Anonymous` gives
`AuthenticationRequired`.  The function is a total Lean function, so
every `(identity, rule)` pair is covered. -/
theorem check_authorization_table :
    (∀ u : User, u.check_authorization .anonymous = .authorized)
    ∧ (∀ r : Access, User.singleUser.check_authorization r = .authorized)
    ∧ (∀ n : Username,
        (User.account n).check_authorization .authenticated = .authorized)
    ∧ (∀ (n : Username) (names : List Username),
        ((User.account n).check_authorization (.accounts names) = .authorized ↔
          n ∈ names)
        ∧ (n ∉ names →
          (User.account n).check_authorization (.accounts names) = .unauthorized))
    ∧ (∀ r : Access, r ≠ .anonymous →
        User.anonymous.check_authorization r = .authenticationRequired) := by
  refine ⟨fun u => by cases u <;> rfl, fun r => by cases r <;> rfl, fun n => rfl,
    fun n names => ?_, fun r hr => ?_⟩
  · rw [check_accounts_eq]
    constructor
    · by_cases hm : n ∈ names
      · simp [hm]
      · simp [hm]
    · intro hm
      rw [if_neg hm]
  · cases r with
    | anonymous => exact absurd rfl hr
    | authenticated => rfl
    | accounts l => rfl

/-- Witness for C1: concrete rows of the table with the hypotheses
discharged. -/
theorem check_authorization_table_witness :
    User.anonymous.check_authorization .authenticated = .authenticationRequired
    ∧ (User.account "a").check_authorization (.accounts ["b"]) = .unauthorized :=
  ⟨check_authorization_table.2.2.2.2 .authenticated (by decide),
   (check_authorization_table.2.2.2.1 "a" ["b"]).2 (by decide)⟩

/-- C2: parsing the stream produced by serializing any document yields
that document back — metadata fields and body are preserved verbatim. -/
theorem serialize_parse_round_trip (a : RawArticle) (path : String) :
    fromReader (write a) path = .ok a := by
  rw [write]
  exact parse_writeWith_linux a path

/-- C3: a document serialized with the carriage-return+line-feed
terminator for both delimiter occurrences parses to exactly the same
result as the same document serialized with the line-feed terminator. -/
theorem terminator_tolerance (a : RawArticle) (path : String) :
    fromReader (writeWith MARKDOWN_SEPARATOR_WINDOWS a) path =
      fromReader (writeWith MARKDOWN_SEPARATOR_LINUX a) path := by
  rw [parse_writeWith_windows, parse_writeWith_linux]

/-- C4: when the stream opens with a valid delimiter line but no
subsequent line is a delimiter token, the stream ends before the second
delimiter is found and parsing returns `MissingMetadataEnd`; being a
total function it neither panics nor returns a partial document. -/
theorem truncation_safety (s : List Char) (path : String)
    (h1 : (readLine s).1 = MARKDOWN_SEPARATOR_LINUX ∨
      (readLine s).1 = MARKDOWN_SEPARATOR_WINDOWS)
    (h2 : ∀ l ∈ linesOf (readLine s).2,
      l ≠ MARKDOWN_SEPARATOR_LINUX ∧ l ≠ MARKDOWN_SEPARATOR_WINDOWS) :
    fromReader s path = .error (.missingMetadataEnd path) := by
  simp only [fromReader]
  rw [if_neg (by rcases h1 with h | h <;> simp [h])]
  rw [metaLoop_no_sep path (readLine s).2.length (readLine s).2 [] le_rfl h2]

/-- Witness for C4: a concrete truncated stream. -/
theorem truncation_safety_witness :
    ((readLine ("+++\nkey\n".toList)).1 = MARKDOWN_SEPARATOR_LINUX ∨
      (readLine ("+++\nkey\n".toList)).1 = MARKDOWN_SEPARATOR_WINDOWS)
    ∧ (∀ l ∈ linesOf (readLine ("+++\nkey\n".toList)).2,
        l ≠ MARKDOWN_SEPARATOR_LINUX ∧ l ≠ MARKDOWN_SEPARATOR_WINDOWS)
    ∧ fromReader ("+++\nkey\n".toList) "p" = .error (.missingMetadataEnd "p") :=
  ⟨by decide, by decide, truncation_safety _ "p" (by decide) (by decide)⟩

/-- C5: any stream whose first line is not exactly one of the two
delimiter tokens parses to `MissingMetadataStart` carrying that first
line. -/
theorem bad_first_line (s : List Char) (path : String)
    (hL : (readLine s).1 ≠ MARKDOWN_SEPARATOR_LINUX)
    (hW : (readLine s).1 ≠ MARKDOWN_SEPARATOR_WINDOWS) :
    fromReader s path =
      .error (.missingMetadataStart path (String.mk (readLine s).1)) := by
  simp only [fromReader]
  rw [if_pos ⟨hL, hW⟩]

/-- Witness for C5: a concrete stream with a bad first line. -/
theorem bad_first_line_witness :
    (readLine ("header\nrest".toList)).1 ≠ MARKDOWN_SEPARATOR_LINUX
    ∧ (readLine ("header\nrest".toList)).1 ≠ MARKDOWN_SEPARATOR_WINDOWS
    ∧ fromReader ("header\nrest".toList) "p" =
        .error (.missingMetadataStart "p"
          (String.mk (readLine ("header\nrest".toList)).1)) :=
  ⟨by decide, by decide, bad_first_line _ "p" (by decide) (by decide)⟩

/-- C6 counterexample: the claim says a line that ends with a delimiter
token but carries preceding content terminates the metadata block.  In
the stream `"+++\nx+++\n"` the second line `"x+++\n"` ends with
`MARKDOWN_SEPARATOR_LINUX` and carries preceding content, yet parsing
returns `MissingMetadataEnd`: the loop did not stop at that line (had it
stopped, the result could not be `MissingMetadataEnd`). -/
theorem metadata_stop_counterexample :
    MARKDOWN_SEPARATOR_LINUX.IsSuffix ("x+++\n".toList)
    ∧ "x+++\n".toList ≠ MARKDOWN_SEPARATOR_LINUX
    ∧ "x+++\n".toList ≠ MARKDOWN_SEPARATOR_WINDOWS
    ∧ linesOf ("+++\nx+++\n".toList) =
        [MARKDOWN_SEPARATOR_LINUX, "x+++\n".toList]
    ∧ fromReader ("+++\nx+++\n".toList) "p" = .error (.missingMetadataEnd "p") :=
  ⟨⟨['x'], by decide⟩, by decide, by decide, by decide, by decide⟩

/-- C6 (amended): metadata accumulation stops at the first line that is
exactly one of the two delimiter tokens (recording length 4 for the
line-feed token, 5 for the carriage-return+line-feed token); a line that
merely ends with a token under preceding content continues accumulation;
and stripping the recorded byte length from the accumulated buffer
removes exactly the matched token. -/
theorem metadata_accumulation_amended :
    (∀ (path : String) (acc s : List Char),
      metaLoop path acc [] s =
        (if (readLine s).1 = [] then .error (.missingMetadataEnd path)
         else if (readLine s).1 = MARKDOWN_SEPARATOR_LINUX then
           .ok (acc ++ (readLine s).1, 4, (readLine s).2)
         else if (readLine s).1 = MARKDOWN_SEPARATOR_WINDOWS then
           .ok (acc ++ (readLine s).1, 5, (readLine s).2)
         else metaLoop path (acc ++ (readLine s).1) [] (readLine s).2))
    ∧ (∀ buf : List Char,
        truncateBytes (buf ++ MARKDOWN_SEPARATOR_LINUX)
          (byteLen (buf ++ MARKDOWN_SEPARATOR_LINUX) - 4) = buf
        ∧ truncateBytes (buf ++ MARKDOWN_SEPARATOR_WINDOWS)
          (byteLen (buf ++ MARKDOWN_SEPARATOR_WINDOWS) - 5) = buf) := by
  refine ⟨fun path acc s => ?_, fun buf => ⟨strip_linux buf, strip_windows buf⟩⟩
  have h := metaLoop_line path s acc []
  simpa using h

/-- C7 counterexample: the claim says an is-a-directory (or invalid
filename/input) open error is classified as the document-level
`NotFound`; the code classifies only the `NotFound` kind that way and
sends is-a-directory and invalid-input to `IoError`. -/
theorem open_error_classification_counterexample :
    read_from_path (.error .isADirectory) "p" =
      .error (.ioError .isADirectory "p")
    ∧ read_from_path (.error .isADirectory) "p" ≠ .error (.notFound "p")
    ∧ read_from_path (.error .invalidInput) "p" ≠ .error (.notFound "p")
    ∧ read_from_path (.error .invalidFilename) "p" ≠ .error (.notFound "p") :=
  ⟨rfl, by decide, by decide, by decide⟩

/-- C7 (amended): an open failure is classified as the document-level
`NotFound` exactly when the open error kind is path-absent (`NotFound`);
every other open-time error kind — including is-a-directory and invalid
filename/input — becomes the opaque `IoError` carrying that kind. -/
theorem open_error_classification_amended (path : String) (k : IoErrorKind) :
    read_from_path (.error k) path =
      (if k = .notFound then .error (.notFound path)
       else .error (.ioError k path)) := by
  cases k <;> simp [read_from_path]

theorem openW_of_no_tmp (fs : FS) (p : String)
    (hnone : fs.lookup (withAddedExtensionTmp p) = none) :
    WritableFile.openW fs p =
      .ok (⟨p, [], withAddedExtensionTmp p⟩,
        fs.set (withAddedExtensionTmp p) []) := by
  simp only [WritableFile.openW]
  rw [if_neg (by rw [hnone]; simp)]

/-- C8: while a writer opened for `p` is still in flight (its temporary
file, `p` with the fixed `".tmp"` suffix, exists), a second open for `p`
fails with exactly `ConflictingWriteInProgress` (the exclusive-create
already-exists error mapped by `from_io_error_tmp`), not a generic I/O
error; once the first writer closes successfully, the temporary file is
gone (renamed onto `p`) and a new open for `p` succeeds. -/
theorem conflict_detection (fs : FS) (p : String) (h : WritableFile) (fs1 : FS)
    (hopen : WritableFile.openW fs p = .ok (h, fs1)) (data : List Char) :
    WritableFile.openW fs1 p =
      .error (.conflictingWriteInProgress p (withAddedExtensionTmp p))
    ∧ ∀ h2 fs2, WritableFile.close (h.write data) fs1 = .ok (h2, fs2) →
        fs2.lookup (withAddedExtensionTmp p) = none
        ∧ ∃ h3 fs3, WritableFile.openW fs2 p = .ok (h3, fs3) := by
  simp only [WritableFile.openW] at hopen
  by_cases hex : (fs.lookup (withAddedExtensionTmp p)).isSome
  · rw [if_pos hex] at hopen
    exact absurd hopen (by simp)
  · rw [if_neg hex] at hopen
    simp only [Except.ok.injEq, Prod.mk.injEq] at hopen
    obtain ⟨hh, hfs⟩ := hopen
    subst hh
    subst hfs
    constructor
    · simp only [WritableFile.openW]
      rw [if_pos (by rw [FS.lookup_set_self]; rfl)]
      rfl
    · intro h2 fs2 hc
      simp only [WritableFile.close, WritableFile.write, Except.ok.injEq,
        Prod.mk.injEq] at hc
      obtain ⟨hh2, hfs2⟩ := hc
      have hnone : fs2.lookup (withAddedExtensionTmp p) = none := by
        rw [← hfs2]
        exact FS.lookup_remove_self _ _
      exact ⟨hnone, _, _, openW_of_no_tmp fs2 p hnone⟩

/-- Witness for C8: a concrete conflicting open, and a successful re-open
after the close. -/
theorem conflict_detection_witness :
    (WritableFile.openW [("a.tmp", [])] "a" =
      .error (.conflictingWriteInProgress "a" "a.tmp"))
    ∧ ∃ h3 fs3, WritableFile.openW [("a", ['x'])] "a" = .ok (h3, fs3) := by
  have happ := conflict_detection [] "a" ⟨"a", [], "a.tmp"⟩ [("a.tmp", [])]
    (by decide) ['x']
  refine ⟨happ.1, ?_⟩
  have h2 := happ.2 ⟨"a", ['x'], ""⟩ [("a", ['x'])] (by decide)
  exact h2.2

/-- C9: dropping a handle that was never closed (its `tmp_path` is still
the target path plus the `".tmp"` suffix) leaves the content at the
target path unchanged and removes the leftover temporary file; the
destructor is a plain state transformer (`FS → FS`), so the cleanup
cannot raise or propagate a failure. -/
theorem abandoned_write_cleanup (h : WritableFile) (fs : FS)
    (hwf : h.tmp_path = h.path ++ ".tmp") :
    (WritableFile.drop h fs).lookup h.path = fs.lookup h.path
    ∧ (WritableFile.drop h fs).lookup h.tmp_path = none := by
  have hne : h.tmp_path ≠ "" := by rw [hwf]; exact tmp_ne_empty h.path
  have hpt : h.path ≠ h.tmp_path := by rw [hwf]; exact path_ne_tmp h.path
  rw [WritableFile.drop, if_pos hne]
  by_cases hex : (fs.lookup h.tmp_path).isSome
  · rw [removeFile, if_pos hex]
    exact ⟨FS.lookup_remove_ne fs hpt, FS.lookup_remove_self fs _⟩
  · rw [removeFile, if_neg hex]
    refine ⟨rfl, ?_⟩
    cases hv : fs.lookup h.tmp_path with
    | none => rfl
    | some v => rw [hv] at hex; simp at hex

/-- Witness for C9: a concrete abandoned write over an existing file. -/
theorem abandoned_write_cleanup_witness :
    (WritableFile.drop ⟨"a", ['x'], "a.tmp"⟩
        [("a.tmp", ['x']), ("a", ['o'])]).lookup "a" =
      (([("a.tmp", ['x']), ("a", ['o'])] : FS).lookup "a")
    ∧ (WritableFile.drop ⟨"a", ['x'], "a.tmp"⟩
        [("a.tmp", ['x']), ("a", ['o'])]).lookup "a.tmp" = none := by
  have happ := abandoned_write_cleanup ⟨"a", ['x'], "a.tmp"⟩
    [("a.tmp", ['x']), ("a", ['o'])] (by decide)
  exact ⟨happ.1, happ.2⟩

/-- C10: a successful close hands back a handle whose stored temporary
path is the empty path, and dropping such a handle changes nothing at
all; moreover the destructor only ever touches the handle's temporary
path — any other path, in particular the committed target path, is left
exactly as it was. -/
theorem closed_handle_no_cleanup :
    (∀ (h : WritableFile) (fs : FS) (h2 : WritableFile) (fs2 : FS),
      WritableFile.close h fs = .ok (h2, fs2) →
        h2.tmp_path = "" ∧ ∀ g : FS, WritableFile.drop h2 g = g)
    ∧ (∀ (h : WritableFile) (g : FS) (q : String), q ≠ h.tmp_path →
        (WritableFile.drop h g).lookup q = g.lookup q) := by
  constructor
  · intro h fs h2 fs2 hc
    simp only [WritableFile.close, Except.ok.injEq, Prod.mk.injEq] at hc
    obtain ⟨hh, _⟩ := hc
    constructor
    · rw [← hh]
    · intro g
      rw [← hh, WritableFile.drop]
      rw [if_neg (by simp)]
  · intro h g q hq
    rw [WritableFile.drop]
    by_cases hne : h.tmp_path = ""
    · rw [if_neg (by simp [hne])]
    · rw [if_pos hne]
      by_cases hex : (g.lookup h.tmp_path).isSome
      · rw [removeFile, if_pos hex]
        exact FS.lookup_remove_ne g hq
      · rw [removeFile, if_neg hex]

/-- Witness for C10: a concrete close, a no-op drop of the closed handle,
and a drop that leaves the committed path intact. -/
theorem closed_handle_no_cleanup_witness :
    ((⟨"a", ['x'], ""⟩ : WritableFile).tmp_path = ""
      ∧ WritableFile.drop ⟨"a", ['x'], ""⟩ [("b", [])] = [("b", [])])
    ∧ (WritableFile.drop ⟨"c", [], "c.tmp"⟩ [("c", ['y'])]).lookup "c" =
        ([("c", ['y'])] : FS).lookup "c" := by
  constructor
  · have happ := closed_handle_no_cleanup.1 ⟨"a", ['x'], "a.tmp"⟩ []
      ⟨"a", ['x'], ""⟩ [("a", ['x'])] (by decide)
    exact ⟨happ.1, happ.2 [("b", [])]⟩
  · exact closed_handle_no_cleanup.2 ⟨"c", [], "c.tmp"⟩ [("c", ['y'])] "c" (by decide)

end Smolwik
